import Mathlib

/-!
Verification of the segmented colour-palette core of the `dashboard_meteo`
repository, a shallow embedding of `src/custom_color_palette.py` over `ℚ`.

Python floats are modelled as rational numbers, so every arithmetic identity
below is the exact-arithmetic ("within floating tolerance") form of the
corresponding float computation.  numpy arrays are modelled as `List ℚ`.
-/

namespace CustomColorPalette

/-- An RGBA colour with rational components (floats in `[0,1]` in the source). -/
structure RGBA where
  r : ℚ
  g : ℚ
  b : ℚ
  a : ℚ
deriving DecidableEq, Repr

/-- Componentwise scaling of a colour, as in `frac * np.array(rgba)`. -/
def RGBA.scale (s : ℚ) (c : RGBA) : RGBA :=
  ⟨s * c.r, s * c.g, s * c.b, s * c.a⟩

/-- Componentwise addition of colours, as in numpy array addition. -/
def RGBA.add (c d : RGBA) : RGBA :=
  ⟨c.r + d.r, c.g + d.g, c.b + d.b, c.a + d.a⟩

/-- The matplotlib colour names that appear in this repository
(`goes_plots.py`).  Names are an enumerated type rather than strings; the
conversion to RGBA is external to the core under verification. -/
inductive ColorName
  | black
  | white
  | red
  | darkred
  | orange
  | darkgreen
  | lawngreen
  | darkblue
deriving DecidableEq, Repr

/-- A single colour value as accepted by `matplotlib.colors.to_rgba`:
a named colour, an (R,G,B) triple, or an (R,G,B,A) quadruple. -/
inductive Color
  | named (n : ColorName)
  | rgb (r g b : ℚ)
  | rgba (r g b a : ℚ)
deriving DecidableEq, Repr

/-- The CSS4 values matplotlib assigns to the colour names used in this
repository, with components as exact rationals over 255. -/
def ColorName.toRGBA : ColorName → RGBA
  | .black => ⟨0, 0, 0, 1⟩
  | .white => ⟨1, 1, 1, 1⟩
  | .red => ⟨1, 0, 0, 1⟩
  | .darkred => ⟨139/255, 0, 0, 1⟩
  | .orange => ⟨1, 165/255, 0, 1⟩
  | .darkgreen => ⟨0, 100/255, 0, 1⟩
  | .lawngreen => ⟨124/255, 252/255, 0, 1⟩
  | .darkblue => ⟨0, 0, 139/255, 1⟩

/-- Models `matplotlib.colors.to_rgba` (an external collaborator of the core):
an (R,G,B) triple gains alpha 1, an (R,G,B,A) quadruple passes through, and a
named colour is looked up in the colour table. -/
def to_rgba : Color → RGBA
  | .named n => n.toRGBA
  | .rgb r g b => ⟨r, g, b, 1⟩
  | .rgba r g b a => ⟨r, g, b, a⟩

instance : Inhabited Color := ⟨Color.rgba 0 0 0 0⟩

/-- A colour specification, the first element of a segment: either a
matplotlib `Colormap` object — a continuous function from `[0,1]` to RGBA —
or a list of colour values.  This is the tagged union the source dispatches
on with `isinstance(color_spec, mcolors.Colormap)`. -/
inductive ColorSpec
  | colormap (f : ℚ → RGBA)
  | colorList (names : List Color)

/-- Models `numpy.linspace start stop num` over `ℚ`: `num` evenly spaced
values from `start` to `stop` inclusive; `num = 1` gives `[start]` and
`num = 0` gives `[]`, as in numpy. -/
def linspace (start stop : ℚ) (num : ℕ) : List ℚ :=
  if num = 1 then [start]
  else (List.range num).map (fun (i : ℕ) => start + (stop - start) * (i : ℚ) / ((num : ℚ) - 1))

/-- The module's numeric `range` function (`custom_color_palette.range`,
called `generate_range` in the specification):
`n_steps = int(np.floor((stop - start) / step)) + 1` points starting at
`start` with spacing `step`, i.e.
`np.linspace(start, start + step * (n_steps - 1), n_steps)`.
A non-positive point count (impossible for `start ≤ stop`, `step > 0`) is
clamped to the empty list. -/
def range (start stop step : ℚ) : List ℚ :=
  let n_steps : ℤ := ⌊(stop - start) / step⌋ + 1
  linspace start (start + step * ((n_steps : ℚ) - 1)) n_steps.toNat

/-- `_colors_from_spec color_spec n`: a list of exactly `n` RGBA colours.
A `Colormap` is sampled at `np.linspace(0, 1, n)`; a one-element colour list
is repeated `n` times; a longer list is interpolated at positions
`t = i / max (n-1) 1` mapped to `pos = t * (len - 1)`, blending the colours
at indices `floor pos` and `min (ceil pos) (len - 1)` with weight
`frac = pos - floor pos`.  `List.getD` stands in for Python indexing; its
fallback value is never reached for the in-range indices the loop produces. -/
def _colors_from_spec (color_spec : ColorSpec) (n : ℕ) : List RGBA :=
  match color_spec with
  | .colormap f => (linspace 0 1 n).map f
  | .colorList names =>
    if names.length = 1 then
      List.replicate n (to_rgba (names.getD 0 default))
    else
      (List.range n).map (fun (i : ℕ) =>
        let t : ℚ := (i : ℚ) / ((max (n - 1) 1 : ℕ) : ℚ)
        let pos : ℚ := t * ((names.length : ℚ) - 1)
        let i0 : ℤ := ⌊pos⌋
        let i1 : ℤ := min ⌈pos⌉ ((names.length : ℤ) - 1)
        let frac : ℚ := pos - (i0 : ℚ)
        let c0 := to_rgba (names.getD i0.toNat default)
        let c1 := to_rgba (names.getD i1.toNat default)
        RGBA.add (RGBA.scale (1 - frac) c0) (RGBA.scale frac c1))

/-- One palette segment `pal` as passed to `creates_palette`: a Python list
whose relevant content is `pal[0]` (the colour specification) and `pal[1]`
(the value array, coerced to float).  `size` records `len(pal)`; the code
reads `pal[0]` and `pal[1]` only when `size ≥ 2`, so a malformed segment is
any segment with `size < 2`, whatever its other fields hold. -/
structure Segment where
  size : ℕ
  color_spec : ColorSpec
  vals : List ℚ

/-- The accumulation loop of `creates_palette`: segments with fewer than two
elements are skipped; each remaining segment contributes the pairing of its
values with `_colors_from_spec` of its colour specification (the source keeps
two parallel lists `all_vals` / `all_cols`; since `_colors_from_spec` returns
exactly `len(vals)` colours, the zip is the same data). -/
def accumulate : List Segment → List (ℚ × RGBA)
  | [] => []
  | pal :: rest =>
    if pal.size < 2 then accumulate rest
    else pal.vals.zip (_colors_from_spec pal.color_spec pal.vals.length) ++ accumulate rest

/-- The `extend` argument forwarded to `matplotlib.colors.BoundaryNorm`. -/
inductive ExtendMode
  | neither
  | both
  | emin
  | emax
deriving DecidableEq, Repr

/-- How a call to `creates_palette` can fail.  The source has no explicit
error type of its own; two library errors can escape it:
`emptyReduction` models numpy's "zero-size array to reduction operation"
`ValueError` raised by `all_vals.min()` on an empty accumulator, and
`fewBoundaries` models the `ValueError` ("You must provide at least 2
boundaries") that the `BoundaryNorm` constructor of matplotlib ≥ 3.4 (the
versions accepting the `extend` keyword the source passes) raises eagerly
when the unique boundary array has fewer than 2 entries.  `emptyPalette` is
the `EmptyPaletteError` the specification asks for; the source never raises
it. -/
inductive PalError
  | emptyReduction
  | fewBoundaries
  | emptyPalette
deriving DecidableEq, Repr

/-- The tuple `(cmap, ticks, norm, bounds)` returned by `creates_palette`.
The continuous colormap built by `LinearSegmentedColormap.from_list` is
represented by its control-point list `color_list` (pairs of normalized
position and colour), and the `BoundaryNorm` by the data it is built from:
its `boundaries` and its `extend` mode. -/
structure PaletteResult where
  color_list : List (ℚ × RGBA)
  ticks : List ℚ
  norm_boundaries : List ℚ
  norm_extend : ExtendMode
  bounds : List ℚ
deriving DecidableEq, Repr

/-- `np.clip x 0.0 1.0`. -/
def clip01 (x : ℚ) : ℚ := min (max x 0) 1

/-- The normalization denominator: `(vmax - vmin) if vmax > vmin else 1.0`. -/
def denomOf (vmin vmax : ℚ) : ℚ := if vmin < vmax then vmax - vmin else 1

/-- The in-place update `a[0] = x` on a nonempty array, as a list function. -/
def setFirst (x : ℚ) : List ℚ → List ℚ
  | [] => []
  | _ :: t => x :: t

/-- The in-place update `a[-1] = x` on a nonempty array, as a list function. -/
def setLast (x : ℚ) : List ℚ → List ℚ
  | [] => []
  | [_] => [x]
  | a :: b :: t => a :: setLast x (b :: t)

/-- `np.unique` applied to the already sorted value array: the sorted list
with consecutive duplicates removed. -/
def uniqueSorted : List ℚ → List ℚ
  | [] => []
  | [a] => [a]
  | a :: b :: t => if a = b then uniqueSorted (b :: t) else a :: uniqueSorted (b :: t)

/-- The comparison `np.argsort` orders the accumulated pairs by: value
ascending.  The source's quicksort leaves the relative order of equal values
unspecified; the embedding fixes the stable order (which none of the verified
properties depend on). -/
def pairLe (p q : ℚ × RGBA) : Prop := p.1 ≤ q.1

instance : DecidableRel pairLe := fun p q => inferInstanceAs (Decidable (p.1 ≤ q.1))

/-- Lines 106–120 of the source, for a nonempty sorted pair list with head
`q` and tail `qs`: compute `vmin`/`vmax`, normalize by `denomOf`, clip to
`[0,1]`, pin the first normalized value to 0 and then the last to 1, and zip
with the colours.  This is the control-point list handed to
`LinearSegmentedColormap.from_list` (line 122), which stores it without
eager validation. -/
def color_list_of_sorted (q : ℚ × RGBA) (qs : List (ℚ × RGBA)) : List (ℚ × RGBA) :=
  let all_vals := q.1 :: (qs.map Prod.fst)
  let vmin := (qs.map Prod.fst).foldl min q.1
  let vmax := (qs.map Prod.fst).foldl max q.1
  let vals_norm := all_vals.map (fun x => clip01 ((x - vmin) / denomOf vmin vmax))
  (setLast 1 (setFirst 0 vals_norm)).zip (q.2 :: (qs.map Prod.snd))

/-- Lines 99–131 of the source, operating on the accumulated
`(value, colour)` pairs: sort by value; `min`/`max` (raising numpy's
`ValueError` on an empty array); build the colormap control points
(`color_list_of_sorted`); take `np.unique` of the raw sorted values for
`bounds` and `ticks`; finally construct the `BoundaryNorm` (line 129), which
in matplotlib ≥ 3.4 raises `ValueError` when given fewer than 2 boundaries —
so a single unique accumulated value makes the call raise instead of
returning. -/
def palette_from_pairs (pairs : List (ℚ × RGBA)) (extend : ExtendMode) :
    Except PalError PaletteResult :=
  match List.insertionSort pairLe pairs with
  | [] => .error .emptyReduction
  | q :: qs =>
    let color_list := color_list_of_sorted q qs
    let bounds := uniqueSorted (q.1 :: (qs.map Prod.fst))
    if bounds.length < 2 then .error .fewBoundaries
    else .ok ⟨color_list, bounds, bounds, extend, bounds⟩

/-- `creates_palette paletas extend`: accumulate the segments, then build the
palette.  (The source defaults `extend` to `"both"`; the embedding passes the
mode explicitly.) -/
def creates_palette (paletas : List Segment) (extend : ExtendMode) :
    Except PalError PaletteResult :=
  palette_from_pairs (accumulate paletas) extend

/-! ## Basic lemmas about the range generator -/

theorem linspace_length (a b : ℚ) (n : ℕ) : (linspace a b n).length = n := by
  unfold linspace
  split
  · simp [*]
  · rw [List.length_map, List.length_range]

theorem linspace_getD (a b : ℚ) {n : ℕ} (hn : 2 ≤ n) {i : ℕ} (hi : i < n) :
    (linspace a b n).getD i 0 = a + (b - a) * (i : ℚ) / ((n : ℚ) - 1) := by
  have hlen : i <
      ((List.range n).map (fun (j : ℕ) => a + (b - a) * (j : ℚ) / ((n : ℚ) - 1))).length := by
    rw [List.length_map, List.length_range]; omega
  unfold linspace
  rw [if_neg (by omega), List.getD_eq_getElem?_getD, List.getElem?_eq_getElem hlen,
    List.getElem_map, List.getElem_range]
  rfl

/-- The arithmetic core of the range generator: `linspace` from `a` with
final value `a + step * (N - 1)` has length `N`, starts at `a`, ends at
`a + step * (N - 1)`, and has constant consecutive difference `step`. -/
theorem linspace_arith (a step : ℚ) (N : ℕ) (hN : 1 ≤ N) :
    (linspace a (a + step * ((N : ℚ) - 1)) N).length = N ∧
    (linspace a (a + step * ((N : ℚ) - 1)) N).head? = some a ∧
    (linspace a (a + step * ((N : ℚ) - 1)) N).getLast? = some (a + step * ((N : ℚ) - 1)) ∧
    (∀ i : ℕ, i + 1 < N →
      (linspace a (a + step * ((N : ℚ) - 1)) N).getD (i + 1) 0 -
        (linspace a (a + step * ((N : ℚ) - 1)) N).getD i 0 = step) := by
  rcases Nat.lt_or_ge N 2 with h2 | h2
  · have hN1 : N = 1 := by omega
    subst hN1
    refine ⟨by simp [linspace], by simp [linspace], by simp [linspace], ?_⟩
    intro i hi
    omega
  · have hne : ((N : ℚ) - 1) ≠ 0 := by
      have : (2 : ℚ) ≤ (N : ℚ) := by exact_mod_cast h2
      intro h
      nlinarith
    have hlen := linspace_length a (a + step * ((N : ℚ) - 1)) N
    have hpos : 0 < N := by omega
    refine ⟨hlen, ?_, ?_, ?_⟩
    · have h0 : 0 < (linspace a (a + step * ((N : ℚ) - 1)) N).length := by omega
      rw [List.head?_eq_getElem?, List.getElem?_eq_getElem h0]
      have hg : (linspace a (a + step * ((N : ℚ) - 1)) N).getD 0 0 =
          a + ((a + step * ((N : ℚ) - 1)) - a) * ((0 : ℕ) : ℚ) / ((N : ℚ) - 1) :=
        linspace_getD _ _ h2 hpos
      rw [List.getD_eq_getElem?_getD, List.getElem?_eq_getElem h0] at hg
      simp only [Option.getD_some] at hg
      rw [hg]
      norm_num
    · rw [List.getLast?_eq_getElem?, hlen, List.getElem?_eq_getElem (by omega)]
      have hg : (linspace a (a + step * ((N : ℚ) - 1)) N).getD (N - 1) 0 =
          a + ((a + step * ((N : ℚ) - 1)) - a) * ((N - 1 : ℕ) : ℚ) / ((N : ℚ) - 1) :=
        linspace_getD _ _ h2 (by omega)
      rw [List.getD_eq_getElem?_getD, List.getElem?_eq_getElem (by omega)] at hg
      simp only [Option.getD_some] at hg
      rw [hg]
      have hcast : ((N - 1 : ℕ) : ℚ) = (N : ℚ) - 1 := by
        have : 1 ≤ N := by omega
        push_cast [this]
        ring
      rw [hcast]
      field_simp
    · intro i hi
      rw [linspace_getD _ _ h2 (by omega), linspace_getD _ _ h2 (by omega)]
      have hcast : ((i + 1 : ℕ) : ℚ) = (i : ℚ) + 1 := by push_cast; ring
      rw [hcast]
      field_simp
      ring

/-- C2: for `start ≤ stop` and `step > 0`, the module's `range` function
returns a sequence of length `n = ⌊(stop - start) / step⌋ + 1` whose first
element is `start`, whose last element is `start + step * (n - 1)`, and whose
consecutive elements differ by exactly `step`. -/
theorem c2_range_evenly_spaced (start stop step : ℚ) (hss : start ≤ stop) (hstep : 0 < step) :
    (range start stop step).length = (⌊(stop - start) / step⌋ + 1).toNat ∧
    (range start stop step).head? = some start ∧
    (range start stop step).getLast? =
      some (start + step * (((⌊(stop - start) / step⌋ + 1).toNat : ℚ) - 1)) ∧
    (∀ i : ℕ, i + 1 < (⌊(stop - start) / step⌋ + 1).toNat →
      (range start stop step).getD (i + 1) 0 - (range start stop step).getD i 0 = step) := by
  have hz : 0 ≤ ⌊(stop - start) / step⌋ :=
    Int.floor_nonneg.mpr (div_nonneg (by linarith) hstep.le)
  have hN : 1 ≤ (⌊(stop - start) / step⌋ + 1).toNat := by omega
  have hcast : (((⌊(stop - start) / step⌋ + 1).toNat : ℕ) : ℚ) =
      ((⌊(stop - start) / step⌋ + 1 : ℤ) : ℚ) := by
    exact_mod_cast Int.toNat_of_nonneg (by omega)
  have harith := linspace_arith start step (⌊(stop - start) / step⌋ + 1).toNat hN
  unfold range
  dsimp only
  rw [← hcast]
  exact harith

/-! ## Per-segment colour resolution -/

/-- C7: a colour specification that is a discrete colour list of length 1
resolves, over any value sequence of length `n`, to that single colour
(converted to RGBA) repeated `n` times; through `accumulate`, such a segment
contributes exactly its values each paired with that colour. -/
theorem c7_single_color_repeat (c : Color) (n : ℕ) (vs : List ℚ) :
    _colors_from_spec (.colorList [c]) n = List.replicate n (to_rgba c) ∧
    accumulate [⟨2, .colorList [c], vs⟩] =
      vs.zip (List.replicate vs.length (to_rgba c)) := by
  constructor
  · simp [_colors_from_spec]
  · simp [accumulate, _colors_from_spec]

/-- C9: a discrete colour list of length at least 2 over a single value does
not divide by zero: the `max (n-1) 1` guard makes `t = 0`, and the single
resolved colour is exactly the RGBA of the first colour of the list. -/
theorem c9_multi_color_single_value (names : List Color) (h2 : 2 ≤ names.length) :
    _colors_from_spec (.colorList names) 1 = [to_rgba (names.getD 0 default)] := by
  unfold _colors_from_spec
  dsimp only
  rw [if_neg (by omega)]
  have hceil : min ⌈(0 : ℚ)⌉ ((names.length : ℤ) - 1) = 0 := by
    rw [Int.ceil_zero]
    exact min_eq_left (by omega)
  simp only [List.range_succ, List.range_zero, List.nil_append, List.map_cons, List.map_nil]
  norm_num [hceil, RGBA.scale, RGBA.add]

/-- C8: a two-colour list `[A, B]` over an odd number `k = 2*m+1` of values
(`m ≥ 1`, so `k ≥ 3`) resolves to exactly `k` colours whose middle colour
(index `m`) is the componentwise RGBA average of `A` and `B`: position
`t = m/(2m) = 1/2` maps to `pos = 1/2`, the floor/ceil index pair is `(0, 1)`,
and the fractional blend weight is `1/2`. -/
theorem c8_two_color_midpoint (A B : Color) (m : ℕ) (hm : 1 ≤ m) :
    (_colors_from_spec (.colorList [A, B]) (2 * m + 1)).length = 2 * m + 1 ∧
    (_colors_from_spec (.colorList [A, B]) (2 * m + 1)).getD m ⟨0, 0, 0, 0⟩ =
      ⟨((to_rgba A).r + (to_rgba B).r) / 2, ((to_rgba A).g + (to_rgba B).g) / 2,
       ((to_rgba A).b + (to_rgba B).b) / 2, ((to_rgba A).a + (to_rgba B).a) / 2⟩ := by
  have hne1 : ¬ (([A, B] : List Color).length = 1) := by simp
  constructor
  · unfold _colors_from_spec
    dsimp only
    rw [if_neg hne1, List.length_map, List.length_range]
  · unfold _colors_from_spec
    dsimp only
    rw [if_neg hne1]
    have hlen : m < ((List.range (2 * m + 1)).map (fun (i : ℕ) =>
        let t : ℚ := (i : ℚ) / ((max (2 * m + 1 - 1) 1 : ℕ) : ℚ)
        let pos : ℚ := t * ((([A, B] : List Color).length : ℚ) - 1)
        let i0 : ℤ := ⌊pos⌋
        let i1 : ℤ := min ⌈pos⌉ ((([A, B] : List Color).length : ℤ) - 1)
        let frac : ℚ := pos - (i0 : ℚ)
        let c0 := to_rgba (([A, B] : List Color).getD i0.toNat default)
        let c1 := to_rgba (([A, B] : List Color).getD i1.toNat default)
        RGBA.add (RGBA.scale (1 - frac) c0) (RGBA.scale frac c1))).length := by
      rw [List.length_map, List.length_range]; omega
    rw [List.getD_eq_getElem?_getD, List.getElem?_eq_getElem hlen, List.getElem_map,
      List.getElem_range]
    have hmax : (max (2 * m + 1 - 1) 1 : ℕ) = 2 * m := by omega
    have hm0 : ((m : ℚ)) ≠ 0 := Nat.cast_ne_zero.mpr (by omega)
    have ht : (m : ℚ) / (((2 * m : ℕ) : ℕ) : ℚ) = 1 / 2 := by
      push_cast
      field_simp
      ring
    have hpos : (m : ℚ) / (((2 * m : ℕ) : ℕ) : ℚ) * ((([A, B] : List Color).length : ℚ) - 1) =
        1 / 2 := by
      rw [ht]
      norm_num
    have hfloor : ⌊(1 : ℚ) / 2⌋ = 0 := by norm_num
    have hceil : ⌈(1 : ℚ) / 2⌉ = 1 := by
      rw [Int.ceil_eq_iff]
      norm_num
    dsimp only
    rw [hmax, hpos, hfloor, hceil]
    norm_num [RGBA.scale, RGBA.add]
    constructor
    · ring
    constructor
    · ring
    constructor
    · ring
    · ring

/-- Witness for C2 at the concrete input `range 0 1 (1/2)`, where
`n = ⌊2⌋ + 1 = 3`. -/
theorem c2_range_evenly_spaced_witness :
    (0 : ℚ) ≤ 1 ∧ (0 : ℚ) < 1 / 2 ∧ (range 0 1 (1 / 2)).length = 3 := by
  refine ⟨by norm_num, by norm_num, ?_⟩
  have h := (c2_range_evenly_spaced 0 1 (1 / 2) (by norm_num) (by norm_num)).1
  rw [h]
  norm_num
  decide

/-- Witness for C8 at `m = 1` (three values) with `A` red and `B` darkblue. -/
theorem c8_two_color_midpoint_witness :
    1 ≤ 1 ∧
    (_colors_from_spec (.colorList [Color.rgba 1 0 0 1, Color.rgba 0 0 1 1])
        (2 * 1 + 1)).getD 1 ⟨0, 0, 0, 0⟩ =
      ⟨((to_rgba (Color.rgba 1 0 0 1)).r + (to_rgba (Color.rgba 0 0 1 1)).r) / 2,
       ((to_rgba (Color.rgba 1 0 0 1)).g + (to_rgba (Color.rgba 0 0 1 1)).g) / 2,
       ((to_rgba (Color.rgba 1 0 0 1)).b + (to_rgba (Color.rgba 0 0 1 1)).b) / 2,
       ((to_rgba (Color.rgba 1 0 0 1)).a + (to_rgba (Color.rgba 0 0 1 1)).a) / 2⟩ :=
  ⟨le_refl 1,
    (c8_two_color_midpoint (Color.rgba 1 0 0 1) (Color.rgba 0 0 1 1) 1 (le_refl 1)).2⟩

/-- Witness for C9 at a concrete two-colour list. -/
theorem c9_multi_color_single_value_witness :
    2 ≤ ([Color.named .black, Color.named .white] : List Color).length ∧
    _colors_from_spec (.colorList [Color.named .black, Color.named .white]) 1 =
      [to_rgba (([Color.named .black, Color.named .white] : List Color).getD 0 default)] :=
  ⟨by norm_num,
    c9_multi_color_single_value [Color.named .black, Color.named .white] (by norm_num)⟩

/-! ## Helper lemmas about the palette compositor's list operations -/

instance : IsTotal (ℚ × RGBA) pairLe := ⟨fun a b => le_total a.1 b.1⟩

instance : IsTrans (ℚ × RGBA) pairLe := ⟨fun _ _ _ hab hbc => le_trans hab hbc⟩

theorem sorted_fst_insertionSort (pairs : List (ℚ × RGBA)) :
    ((List.insertionSort pairLe pairs).map Prod.fst).Sorted (· ≤ ·) :=
  List.Pairwise.map Prod.fst (fun _ _ hab => hab) (List.sorted_insertionSort pairLe pairs)

theorem setFirst_length (x : ℚ) : ∀ l : List ℚ, (setFirst x l).length = l.length
  | [] => rfl
  | _ :: _ => rfl

theorem setLast_length (x : ℚ) : ∀ l : List ℚ, (setLast x l).length = l.length
  | [] => rfl
  | [_] => rfl
  | a :: b :: t => by
    rw [setLast, List.length_cons, List.length_cons, setLast_length x (b :: t),
      List.length_cons]

theorem setLast_ne_nil (x : ℚ) (l : List ℚ) (h : l ≠ []) : setLast x l ≠ [] := by
  intro hc
  apply h
  have hlen := setLast_length x l
  rw [hc] at hlen
  exact List.length_eq_zero.mp hlen.symm

theorem getLast?_cons_ne (a : ℚ) (l : List ℚ) (h : l ≠ []) :
    (a :: l).getLast? = l.getLast? := by
  cases l with
  | nil => exact absurd rfl h
  | cons b t => rw [List.getLast?_cons_cons]

theorem getLast?_setLast (x : ℚ) : ∀ l : List ℚ, l ≠ [] → (setLast x l).getLast? = some x
  | [], h => absurd rfl h
  | [_], _ => rfl
  | a :: b :: t, _ => by
    rw [setLast, getLast?_cons_ne a (setLast x (b :: t)) (setLast_ne_nil x (b :: t) (by simp))]
    exact getLast?_setLast x (b :: t) (by simp)

theorem head?_setLast_of_two (x : ℚ) (l : List ℚ) (h : 2 ≤ l.length) :
    (setLast x l).head? = l.head? := by
  match l, h with
  | a :: b :: t, _ => rw [setLast, List.head?_cons, List.head?_cons]

theorem mem_uniqueSorted (x : ℚ) : ∀ l : List ℚ, x ∈ uniqueSorted l ↔ x ∈ l
  | [] => Iff.rfl
  | [_] => Iff.rfl
  | a :: b :: t => by
    rw [uniqueSorted]
    by_cases hab : a = b
    · rw [if_pos hab, mem_uniqueSorted x (b :: t)]
      subst hab
      simp only [List.mem_cons]
      tauto
    · rw [if_neg hab, List.mem_cons, mem_uniqueSorted x (b :: t), List.mem_cons]
      simp [List.mem_cons]

theorem uniqueSorted_sorted : ∀ l : List ℚ, l.Sorted (· ≤ ·) → (uniqueSorted l).Sorted (· < ·)
  | [], _ => List.sorted_nil
  | [_], _ => List.sorted_singleton _
  | a :: b :: t, h => by
    have hab : a ≤ b := (List.pairwise_cons.mp h).1 b (by simp)
    have htail : (b :: t).Sorted (· ≤ ·) := (List.pairwise_cons.mp h).2
    have hrec := uniqueSorted_sorted (b :: t) htail
    rw [uniqueSorted]
    by_cases he : a = b
    · rw [if_pos he]
      exact hrec
    · rw [if_neg he]
      rw [List.sorted_cons]
      refine ⟨?_, hrec⟩
      intro x hx
      have hxmem : x ∈ b :: t := (mem_uniqueSorted x (b :: t)).mp hx
      have hbx : b ≤ x := by
        rcases List.mem_cons.mp hxmem with h1 | h1
        · exact h1 ▸ le_refl b
        · exact (List.pairwise_cons.mp htail).1 x h1
      exact lt_of_lt_of_le (lt_of_le_of_ne hab he) hbx

/-- Evaluation of `palette_from_pairs` when the sorted pair list is nonempty
and at least 2 unique boundaries exist: the exact result tuple. -/
theorem palette_from_pairs_eq_ok (em : ExtendMode) (pairs : List (ℚ × RGBA))
    (q : ℚ × RGBA) (qs : List (ℚ × RGBA))
    (hsort : List.insertionSort pairLe pairs = q :: qs)
    (hb : ¬ (uniqueSorted (q.1 :: qs.map Prod.fst)).length < 2) :
    palette_from_pairs pairs em = .ok
      ⟨color_list_of_sorted q qs,
       uniqueSorted (q.1 :: qs.map Prod.fst),
       uniqueSorted (q.1 :: qs.map Prod.fst),
       em,
       uniqueSorted (q.1 :: qs.map Prod.fst)⟩ := by
  unfold palette_from_pairs
  rw [hsort]
  dsimp only
  rw [if_neg hb]

/-- Evaluation of `palette_from_pairs` when the sorted pair list is nonempty
but has a single unique value: the eager `BoundaryNorm` error. -/
theorem palette_from_pairs_few (em : ExtendMode) (pairs : List (ℚ × RGBA))
    (q : ℚ × RGBA) (qs : List (ℚ × RGBA))
    (hsort : List.insertionSort pairLe pairs = q :: qs)
    (hb : (uniqueSorted (q.1 :: qs.map Prod.fst)).length < 2) :
    palette_from_pairs pairs em = .error .fewBoundaries := by
  unfold palette_from_pairs
  rw [hsort]
  dsimp only
  rw [if_pos hb]

/-- Evaluation of `palette_from_pairs` on an empty accumulator: the numpy
empty-reduction error. -/
theorem palette_from_pairs_nil (em : ExtendMode) (pairs : List (ℚ × RGBA))
    (hsort : List.insertionSort pairLe pairs = []) :
    palette_from_pairs pairs em = .error .emptyReduction := by
  unfold palette_from_pairs
  rw [hsort]

/-! ## Claims about creates_palette -/

/-- C4: whenever `creates_palette` succeeds, the returned `bounds` are
strictly ascending (sorted with no duplicates), contain exactly the raw
(non-normalized) accumulated values, and `ticks` equals `bounds`.  A strictly
sorted list is uniquely determined by its member set, so the second and third
conjuncts say `bounds` is the sorted deduplication of the accumulated raw
values. -/
theorem c4_bounds_sorted_unique (paletas : List Segment) (em : ExtendMode) (r : PaletteResult)
    (h : creates_palette paletas em = .ok r) :
    r.bounds.Sorted (· < ·) ∧ r.bounds.Nodup ∧
    (∀ x : ℚ, x ∈ r.bounds ↔ x ∈ (accumulate paletas).map Prod.fst) ∧
    r.ticks = r.bounds := by
  unfold creates_palette at h
  cases hsort : List.insertionSort pairLe (accumulate paletas) with
  | nil =>
    rw [palette_from_pairs_nil em _ hsort] at h
    exact absurd h (by simp)
  | cons q qs =>
    by_cases hb : (uniqueSorted (q.1 :: qs.map Prod.fst)).length < 2
    · rw [palette_from_pairs_few em _ q qs hsort hb] at h
      exact absurd h (by simp)
    rw [palette_from_pairs_eq_ok em _ q qs hsort hb] at h
    injection h with h
    subst h
    have hfst : q.1 :: qs.map Prod.fst =
        (List.insertionSort pairLe (accumulate paletas)).map Prod.fst := by
      rw [hsort, List.map_cons]
    have hsortedLE : (q.1 :: qs.map Prod.fst).Sorted (· ≤ ·) := by
      rw [hfst]
      exact sorted_fst_insertionSort _
    have hlt : (uniqueSorted (q.1 :: qs.map Prod.fst)).Sorted (· < ·) :=
      uniqueSorted_sorted _ hsortedLE
    refine ⟨hlt, hlt.nodup, ?_, rfl⟩
    intro x
    rw [mem_uniqueSorted, hfst]
    exact ((List.perm_insertionSort pairLe (accumulate paletas)).map Prod.fst).mem_iff

/-- C3 as stated is false at a singleton input, and the refutation lives in
the control points handed to `LinearSegmentedColormap.from_list` (line 122),
which the source builds before the `BoundaryNorm` constructor raises (line
129): for the accepted single-segment single-value list, the sorted
accumulated stop list is the one pair `(5, red)`, the control-point list fed
to the colormap is `[(1, red)]` — so its first entry, sorted or not, has
normalized position 1, not 0 — and the call then raises in `BoundaryNorm`
rather than returning. -/
theorem c3_counterexample_singleton :
    List.insertionSort pairLe
        (accumulate [⟨2, .colorList [Color.named .red], [5]⟩]) = [(5, ⟨1, 0, 0, 1⟩)] ∧
    color_list_of_sorted (5, ⟨1, 0, 0, 1⟩) [] = [(1, ⟨1, 0, 0, 1⟩)] ∧
    creates_palette [⟨2, .colorList [Color.named .red], [5]⟩] .both =
      .error .fewBoundaries ∧
    (1 : ℚ) ≠ 0 := by
  have hacc : accumulate [⟨2, ColorSpec.colorList [Color.named .red], [5]⟩] =
      [(5, ⟨1, 0, 0, 1⟩)] := by
    simp [accumulate, _colors_from_spec, to_rgba, ColorName.toRGBA]
  refine ⟨by rw [hacc]; rfl, ?_, ?_, by norm_num⟩
  · norm_num [color_list_of_sorted, clip01, denomOf, setFirst, setLast]
  · unfold creates_palette
    rw [hacc]
    exact palette_from_pairs_few .both [(5, ⟨1, 0, 0, 1⟩)] (5, ⟨1, 0, 0, 1⟩) [] rfl
      (by simp [uniqueSorted])

/-- C3 amended: whenever the control-point list has at least two entries, its
first entry's normalized position is exactly 0 and its last entry's position
is exactly 1 (the singleton case instead carries position 1 alone). -/
theorem c3_amended_endpoints_pinned (paletas : List Segment) (em : ExtendMode)
    (r : PaletteResult) (h : creates_palette paletas em = .ok r)
    (h2 : 2 ≤ r.color_list.length) :
    (r.color_list.map Prod.fst).head? = some 0 ∧
    (r.color_list.map Prod.fst).getLast? = some 1 := by
  unfold creates_palette at h
  cases hsort : List.insertionSort pairLe (accumulate paletas) with
  | nil =>
    rw [palette_from_pairs_nil em _ hsort] at h
    exact absurd h (by simp)
  | cons q qs =>
    by_cases hb : (uniqueSorted (q.1 :: qs.map Prod.fst)).length < 2
    · rw [palette_from_pairs_few em _ q qs hsort hb] at h
      exact absurd h (by simp)
    rw [palette_from_pairs_eq_ok em _ q qs hsort hb] at h
    injection h with h
    subst h
    simp only [color_list_of_sorted] at h2 ⊢
    simp only [List.map_cons] at h2 ⊢
    rw [List.length_zip] at h2
    simp only [setLast_length, setFirst_length, List.length_cons, List.length_map,
      min_self] at h2
    rw [List.map_fst_zip _ _ (by
      simp only [setLast_length, setFirst_length, List.length_cons, List.length_map]
      exact le_refl _)]
    constructor
    · rw [head?_setLast_of_two _ _ (by
        simp only [setFirst_length, List.length_cons, List.length_map]
        omega)]
      rw [setFirst, List.head?_cons]
    · refine getLast?_setLast _ _ ?_
      refine List.length_pos.mp ?_
      simp only [setFirst_length, List.length_cons, List.length_map]
      omega

/-- C10: when the accumulated stop list has exactly one element, the pin of
the last normalized position (`vals_norm[-1] = 1.0`, line 118) overwrites the
pin of the first (`vals_norm[0] = 0.0`, line 117), so the single control
point handed to the colormap sits at normalized position exactly 1, not 0.
The full call never returns with a singleton control-point list — the single
unique boundary makes `BoundaryNorm` raise (line 129) — so the fact is stated
of `color_list_of_sorted`, the intermediate control-point computation of
lines 106–120, where the pinning happens. -/
theorem c10_singleton_pinned_to_one (q : ℚ × RGBA) :
    color_list_of_sorted q [] = [(1, q.2)] ∧ (1 : ℚ) ≠ 0 := by
  constructor
  · norm_num [color_list_of_sorted, clip01, denomOf, setFirst, setLast]
  · norm_num

/-- C5 as stated is false: the degenerate single-value palette does not
survive the whole call.  The `denomOf` fallback does make the denominator 1
(no division by zero in the normalization — see the amended theorem), but a
single unique value yields a one-element boundary array, and the
`BoundaryNorm` constructor of matplotlib ≥ 3.4 (forced by the `extend`
keyword the source passes) raises `ValueError` for fewer than 2 boundaries:
the call raises instead of producing a result. -/
theorem c5_counterexample_singleton_raises :
    creates_palette [⟨2, .colorList [Color.named .darkblue], [4]⟩] .both =
      .error .fewBoundaries := by
  have hacc : accumulate [⟨2, ColorSpec.colorList [Color.named .darkblue], [4]⟩] =
      [(4, ⟨0, 0, 139/255, 1⟩)] := by
    simp [accumulate, _colors_from_spec, to_rgba, ColorName.toRGBA]
  unfold creates_palette
  rw [hacc]
  exact palette_from_pairs_few .both [(4, ⟨0, 0, 139/255, 1⟩)] (4, ⟨0, 0, 139/255, 1⟩)
    [] rfl (by simp [uniqueSorted])

/-- C5 amended: when `vmin = vmax` the normalization denominator is taken as
1 instead of `vmax - vmin = 0`, so the normalization itself performs no
division by zero and the control points are fully computed — a single segment
with one colour and one value yields the constant control point
`[(1, colour)]` — but the call then raises in the `BoundaryNorm` constructor
(a single unique value gives fewer than 2 boundaries) rather than returning a
result. -/
theorem c5_denominator_one_but_boundarynorm_raises :
    (∀ v : ℚ, denomOf v v = 1) ∧
    (∀ (c : Color) (x : ℚ),
      color_list_of_sorted (x, to_rgba c) [] = [(1, to_rgba c)]) ∧
    (∀ (c : Color) (x : ℚ) (em : ExtendMode),
      creates_palette [⟨2, .colorList [c], [x]⟩] em = .error .fewBoundaries) := by
  refine ⟨?_, ?_, ?_⟩
  · intro v
    simp [denomOf]
  · intro c x
    norm_num [color_list_of_sorted, clip01, denomOf, setFirst, setLast]
  · intro c x em
    have hacc : accumulate [⟨2, ColorSpec.colorList [c], [x]⟩] = [(x, to_rgba c)] := by
      simp [accumulate, _colors_from_spec]
    unfold creates_palette
    rw [hacc]
    exact palette_from_pairs_few em [(x, to_rgba c)] (x, to_rgba c) [] rfl
      (by simp [uniqueSorted])

theorem accumulate_filter : ∀ l : List Segment,
    accumulate (l.filter (fun p => decide (2 ≤ p.size))) = accumulate l
  | [] => rfl
  | p :: t => by
    rw [List.filter_cons]
    by_cases hp : p.size < 2
    · rw [if_neg (by simp; omega)]
      rw [accumulate, if_pos hp]
      exact accumulate_filter t
    · rw [if_pos (by simp; omega)]
      rw [accumulate, accumulate, if_neg hp, if_neg hp, accumulate_filter t]

/-- C6: segments with fewer than two elements are skipped without error and
contribute nothing: the output over any segment list equals the output over
the sublist of its well-formed (`size ≥ 2`) segments. -/
theorem c6_malformed_segments_skipped (paletas : List Segment) (em : ExtendMode) :
    creates_palette paletas em =
      creates_palette (paletas.filter (fun p => decide (2 ≤ p.size))) em := by
  unfold creates_palette
  rw [accumulate_filter]

/-- C1 concerns a code bug: on all-malformed input (every segment shorter
than two elements) the accumulator is empty and `all_vals.min()` raises
numpy's unhandled zero-size-reduction `ValueError` — not the explicit
`EmptyPaletteError` the specification defines.  This theorem evaluates the
code at such a failing input and records that the raised error is not the
specified one. -/
theorem c1_all_malformed_raises_numpy_error :
    creates_palette [⟨1, .colorList [], []⟩, ⟨0, .colorList [], []⟩] .both =
      .error .emptyReduction ∧
    PalError.emptyReduction ≠ PalError.emptyPalette := by
  constructor
  · have hacc : accumulate [⟨1, ColorSpec.colorList [], []⟩,
        ⟨0, ColorSpec.colorList [], []⟩] = [] := by
      simp [accumulate]
    unfold creates_palette
    rw [hacc]
    exact palette_from_pairs_nil .both [] rfl
  · decide

/-- Witness for the amended C3: a black two-value segment gives control
points at positions 0 and 1. -/
theorem c3_amended_endpoints_pinned_witness :
    (([((0 : ℚ), RGBA.mk 0 0 0 1), (1, RGBA.mk 0 0 0 1)]).map Prod.fst).head? = some 0 ∧
    (([((0 : ℚ), RGBA.mk 0 0 0 1), (1, RGBA.mk 0 0 0 1)]).map Prod.fst).getLast? = some 1 := by
  have hacc : accumulate [⟨2, ColorSpec.colorList [Color.named .black], [0, 10]⟩] =
      [(0, ⟨0, 0, 0, 1⟩), (10, ⟨0, 0, 0, 1⟩)] := by
    simp [accumulate, _colors_from_spec, to_rgba, ColorName.toRGBA]
  have h : creates_palette [⟨2, ColorSpec.colorList [Color.named .black], [0, 10]⟩] .both =
      .ok ⟨[(0, ⟨0, 0, 0, 1⟩), (1, ⟨0, 0, 0, 1⟩)], [0, 10], [0, 10], .both, [0, 10]⟩ := by
    unfold creates_palette
    rw [hacc]
    have hsort : List.insertionSort pairLe [((0 : ℚ), RGBA.mk 0 0 0 1), (10, ⟨0, 0, 0, 1⟩)] =
        [((0 : ℚ), RGBA.mk 0 0 0 1), (10, ⟨0, 0, 0, 1⟩)] := by
      norm_num [List.insertionSort, List.orderedInsert, pairLe]
    rw [palette_from_pairs_eq_ok .both _ _ _ hsort (by norm_num [uniqueSorted])]
    norm_num [color_list_of_sorted, clip01, denomOf, setFirst, setLast, uniqueSorted]
  exact c3_amended_endpoints_pinned _ _ _ h (by norm_num)

/-- Witness for C4: a white segment with raw values `[3, 3, 7]` (note the
duplicate) has bounds `[3, 7]`. -/
theorem c4_bounds_sorted_unique_witness :
    ([3, 7] : List ℚ).Sorted (· < ·) ∧ ([3, 7] : List ℚ).Nodup ∧
    (∀ x : ℚ, x ∈ ([3, 7] : List ℚ) ↔
      x ∈ (accumulate [⟨2, .colorList [Color.named .white], [3, 3, 7]⟩]).map Prod.fst) ∧
    ([3, 7] : List ℚ) = [3, 7] := by
  have hacc : accumulate [⟨2, ColorSpec.colorList [Color.named .white], [3, 3, 7]⟩] =
      [(3, ⟨1, 1, 1, 1⟩), (3, ⟨1, 1, 1, 1⟩), (7, ⟨1, 1, 1, 1⟩)] := by
    simp [accumulate, _colors_from_spec, to_rgba, ColorName.toRGBA]
  have h : creates_palette [⟨2, ColorSpec.colorList [Color.named .white], [3, 3, 7]⟩]
        .neither =
      .ok ⟨[(0, ⟨1, 1, 1, 1⟩), (0, ⟨1, 1, 1, 1⟩), (1, ⟨1, 1, 1, 1⟩)], [3, 7], [3, 7],
        .neither, [3, 7]⟩ := by
    unfold creates_palette
    rw [hacc]
    have hsort : List.insertionSort pairLe
        [((3 : ℚ), RGBA.mk 1 1 1 1), (3, ⟨1, 1, 1, 1⟩), (7, ⟨1, 1, 1, 1⟩)] =
        [((3 : ℚ), RGBA.mk 1 1 1 1), (3, ⟨1, 1, 1, 1⟩), (7, ⟨1, 1, 1, 1⟩)] := by
      norm_num [List.insertionSort, List.orderedInsert, pairLe]
    rw [palette_from_pairs_eq_ok .neither _ _ _ hsort (by norm_num [uniqueSorted])]
    norm_num [color_list_of_sorted, clip01, denomOf, setFirst, setLast, uniqueSorted]
  exact c4_bounds_sorted_unique _ _ _ h

end CustomColorPalette
